import Mathlib

/-!
Shallow embedding of the link-crawling endpoint
`src/server/api/scrape-links.post.ts` of the html-json-scraper repository,
together with proofs of the specification's claims about it.

The endpoint's helpers `normalizeUrl`, `extractLinks`, `getRedirectChain`,
`formatRedirectChain` live in `server/utils/link-analyzer`, which is not part
of the source tree here; they are treated as oracle functions bundled in an
`Env` record (network effects included), except where a definition is
explicitly modelled from the spec.  The crawl loop itself is translated
statement by statement from `scrape-links.post.ts`.  Wall-clock behaviour
(the `sleep` calls) and outbound requests are recorded in an event trace
carried by the crawl state, so that timing claims can be stated about the
sequence of enforced delays.
-/

namespace Scrape

/-- A JavaScript value, as far as the handler's validation inspects the
`urls` field of the request body (`!body.urls || !Array.isArray(body.urls)`).
Array elements are kept as strings because the crawl only ever treats the
field as `string[]`. -/
inductive JsVal where
  | undef
  | nullV
  | boolV (b : Bool)
  | numV (n : Int)
  | strV (s : String)
  | arrV (elems : List String)
  | objV
deriving DecidableEq, Repr

/-- JavaScript truthiness of a `JsVal` (`undefined`, `null`, `false`, `0`
and the empty string are falsy). -/
def JsVal.truthy : JsVal → Bool
  | .undef => false
  | .nullV => false
  | .boolV b => b
  | .numV n => decide (n ≠ 0)
  | .strV s => decide (s ≠ "")
  | .arrV _ => true
  | .objV => true

/-- `Array.isArray`. -/
def JsVal.isArray : JsVal → Bool
  | .arrV _ => true
  | _ => false

/-- The underlying string array of a `JsVal` known to be an array. -/
def JsVal.asArray : JsVal → List String
  | .arrV l => l
  | _ => []

/-- The request body interface `ScrapeLinksRequest` of
`scrape-links.post.ts`, after validation (`urls` known to be an array).
`rateLimit` is a JS number used only in the division `1000 / rateLimit`;
it is embedded as a rational. -/
structure ScrapeLinksRequest where
  urls : List String
  recursive : Bool
  maxUrls : Nat
  maxDepth : Nat
  rateLimit : ℚ
  sameDomainOnly : Bool

/-- The raw request body before validation: the `urls` field is an arbitrary
JS value, the remaining fields are as the crawl consumes them. -/
structure RawRequest where
  urls : JsVal
  recursive : Bool
  maxUrls : Nat
  maxDepth : Nat
  rateLimit : ℚ
  sameDomainOnly : Bool

/-- The `type` field of a `LinkResult`: the literal union `'internal' | 'external'`. -/
inductive LinkType where
  | internal
  | external
deriving DecidableEq, Repr

/-- The `LinkResult` interface of `scrape-links.post.ts`.  The optional
`error` field is an `Option`. -/
structure LinkResult where
  sourceUrl : String
  targetUrl : String
  status : Int
  redirectChain : String
  type : LinkType
  anchorText : String
  rel : String
  depth : Nat
  error : Option String
deriving DecidableEq, Repr

/-- A frontier item, `{ url: string; depth: number; sourceUrl?: string }` in
the source.  The optional `sourceUrl` is an `Option`. -/
structure FrontierItem where
  url : String
  depth : Nat
  sourceUrl : Option String := none
deriving DecidableEq, Repr

/-- One hop of a redirect chain, `{ url, status }` (spec §3, RedirectHop). -/
structure RedirectHop where
  url : String
  status : Int
deriving DecidableEq, Repr

/-- The record returned by `getRedirectChain`:
`{ finalStatus, chain, error? }` (spec §4.3). -/
structure RedirectInfo where
  finalStatus : Int
  chain : List RedirectHop
  error : Option String
deriving DecidableEq, Repr

/-- A `DiscoveredLink` as produced by `extractLinks` (spec §3):
`{ targetUrl, anchorText, rel, isInternal }`. -/
structure DiscoveredLink where
  targetUrl : String
  anchorText : String
  rel : List String
  isInternal : Bool
deriving DecidableEq, Repr

/-- An anchor as it sits in the fetched markup, before URL normalization:
the raw `href`, the anchor text and the rel token list.  The external
markup parser is abstracted away: fetching a page yields its anchors. -/
structure RawAnchor where
  href : String
  anchorText : String
  rel : List String
deriving DecidableEq, Repr

/-- The oracle bundle for everything the handler consumes from outside the
file under `src/`:

* `normalizeUrl` — the missing `link-analyzer` normalizer (spec §4.1):
  absolute canonical URL or the invalid sentinel (`none` embeds JS `null`);
* `hostname` — `new URL(u).hostname`, `none` when the constructor throws;
* `fetchHtml` — one page fetch with `response.text()` and markup parsing:
  `Except.error msg` embeds a thrown transport error (its message string),
  `Except.ok anchors` a successful response with the anchors of the page;
* `getRedirectChain` — the missing redirect-chain resolver (spec §4.3). -/
structure Env where
  normalizeUrl : String → Option String
  hostname : String → Option String
  fetchHtml : String → Except String (List RawAnchor)
  getRedirectChain : String → RedirectInfo

/-- Modelled from the spec: `formatRedirectChain` of `link-analyzer` is not
under `src/`; spec §8 shows the format
`"https://a.test/b (301) -> https://a.test/c (200)"`. -/
def formatRedirectChain (chain : List RedirectHop) : String :=
  String.intercalate " -> " (chain.map fun h => h.url ++ " (" ++ toString h.status ++ ")")

/-- Modelled from the spec: `extractLinks` of `link-analyzer` is not under
`src/`.  Per spec §4.2 it normalizes each anchor's href against the page
URL via the normalizer, skips anchors that fail normalization, and
classifies a link as internal exactly when its hostname equals the source
page's hostname. -/
def extractLinks (env : Env) (anchors : List RawAnchor) (pageUrl : String) :
    List DiscoveredLink :=
  anchors.filterMap fun a =>
    match env.normalizeUrl a.href with
    | none => none
    | some t =>
      some { targetUrl := t, anchorText := a.anchorText, rel := a.rel,
             isInternal :=
               match env.hostname t, env.hostname pageUrl with
               | some th, some ph => th == ph
               | _, _ => false }

/-- Modelled from the spec: §4.1 guarantees that a successful output of
`normalizeUrl` is an absolute canonical URL string, so `new URL` does not
throw on it (its hostname is defined). -/
def EnvWF (env : Env) : Prop :=
  ∀ s t, env.normalizeUrl s = some t → (env.hostname t).isSome = true

/-- An observable timing/network event of one crawl: an enforced delay
(`await sleep(ms)`) or an outbound request issued (page fetch or
redirect-chain check). -/
inductive Event where
  | sleep (ms : ℚ)
  | request (url : String)
deriving DecidableEq, Repr

/-- The mutable state of the crawl loop: the `results` array, the `visited`
set (an insertion-ordered duplicate-free list, as a JS `Set`), the frontier
`queue`, plus the event trace of delays and requests. -/
structure CrawlState where
  results : List LinkResult
  visited : List String
  queue : List FrontierItem
  trace : List Event
deriving Repr

/-- `Set.prototype.add` on the insertion-ordered list model of a JS `Set`. -/
def setAdd (s : List String) (x : String) : List String :=
  if x ∈ s then s else s ++ [x]

/-- JavaScript `o || d` for an optional string `o`: the empty string is
falsy, so it also falls through to the default. -/
def jsOrElse (o : Option String) (d : String) : String :=
  match o with
  | some s => if s = "" then d else s
  | none => d

/-- `1000 / body.rateLimit`, the configured inter-request delay in ms. -/
def delayMs (body : ScrapeLinksRequest) : ℚ :=
  1000 / body.rateLimit

/-- The `baseDomains` set: `body.urls.map(url => try new URL(url).hostname
catch null).filter(Boolean)` — hostnames of the raw seed URLs, dropping
parse failures and (per `Boolean`) empty strings.  Only membership is ever
used, so the JS `Set` is embedded as the list. -/
def baseDomains (env : Env) (body : ScrapeLinksRequest) : List String :=
  (body.urls.filterMap env.hostname).filter fun h => h ≠ ""

/-- The `LinkResult` built for one discovered link (lines 90–102 of the
source): status and chain from the resolver, type from the classifier,
depth from the dequeued item. -/
def mkLinkResult (env : Env) (item : FrontierItem) (link : DiscoveredLink) : LinkResult :=
  let ri := env.getRedirectChain link.targetUrl
  { sourceUrl := item.url
    targetUrl := link.targetUrl
    status := ri.finalStatus
    redirectChain := formatRedirectChain ri.chain
    type := if link.isInternal then LinkType.internal else LinkType.external
    anchorText := link.anchorText
    rel := String.intercalate ", " link.rel
    depth := item.depth
    error := ri.error }

/-- The failure `LinkResult` pushed by the catch block (lines 124–134):
`sourceUrl: item.sourceUrl || item.url`, `targetUrl: item.url`, status 0,
empty chain/anchor/rel, type `'internal'`, the error message. -/
def mkFailureResult (item : FrontierItem) (msg : String) : LinkResult :=
  { sourceUrl := jsOrElse item.sourceUrl item.url
    targetUrl := item.url
    status := 0
    redirectChain := ""
    type := LinkType.internal
    anchorText := ""
    rel := ""
    depth := item.depth
    error := some msg }

/-- The inner `for (const link of links)` loop (lines 86–122).  For each
link: break when the result count has reached `maxUrls`; otherwise issue the
redirect-chain check (one outbound request), push the `LinkResult`, run the
re-enqueue decision (lines 106–118: recursive, internal, depth below cap,
not yet visited, and — unless domain scoping is off — hostname among the
seed hostnames), and sleep half the configured delay.  `new URL(link.targetUrl)`
throwing (hostname `none`) aborts the loop to the catch block: the returned
Bool is `true` exactly when the loop threw. -/
def processLinks (env : Env) (body : ScrapeLinksRequest) (item : FrontierItem) :
    List DiscoveredLink → CrawlState → CrawlState × Bool
  | [], st => (st, false)
  | link :: rest, st =>
    if st.results.length ≥ body.maxUrls then (st, false)
    else
      let st1 : CrawlState :=
        { st with
          results := st.results ++ [mkLinkResult env item link]
          trace := st.trace ++ [Event.request link.targetUrl] }
      if body.recursive && link.isInternal && decide (item.depth < body.maxDepth)
          && !(st1.visited.contains link.targetUrl) then
        match env.hostname link.targetUrl with
        | none => (st1, true)
        | some targetDomain =>
          let st2 : CrawlState :=
            if !body.sameDomainOnly || (baseDomains env body).contains targetDomain then
              { st1 with
                visited := setAdd st1.visited link.targetUrl
                queue := st1.queue ++ [{ url := link.targetUrl, depth := item.depth + 1 }] }
            else st1
          processLinks env body item rest
            { st2 with trace := st2.trace ++ [Event.sleep (delayMs body / 2)] }
      else
        processLinks env body item rest
          { st1 with trace := st1.trace ++ [Event.sleep (delayMs body / 2)] }

/-- One iteration of the `while` loop (lines 65–136), assuming its guard
held: shift the frontier head, sleep the configured delay when results
already exist, fetch the page (one outbound request); on a thrown fetch
error push the failure record (catch block), otherwise extract the links
and run `processLinks`, appending the failure record if that threw
(`new URL` on an unparsable target). -/
def crawlStep (env : Env) (body : ScrapeLinksRequest) (st : CrawlState) : CrawlState :=
  match st.queue with
  | [] => st
  | item :: rest =>
    let st0 : CrawlState :=
      { st with
        queue := rest
        trace := st.trace
          ++ (if 0 < st.results.length then [Event.sleep (delayMs body)] else [])
          ++ [Event.request item.url] }
    match env.fetchHtml item.url with
    | Except.error e =>
      { st0 with results := st0.results ++ [mkFailureResult item e] }
    | Except.ok anchors =>
      match processLinks env body item (extractLinks env anchors item.url) st0 with
      | (st1, true) => { st1 with results := st1.results ++ [mkFailureResult item "Invalid URL"] }
      | (st1, false) => st1

/-- One iteration of the seed loop (lines 44–50): normalize the seed, and
when it is truthy and not yet visited, push it at depth 0 and add it to the
visited set. -/
def seedStep (env : Env) (st : CrawlState) (url : String) : CrawlState :=
  match env.normalizeUrl url with
  | none => st
  | some normalized =>
    if normalized = "" then st
    else if st.visited.contains normalized then st
    else
      { st with
        queue := st.queue ++ [{ url := normalized, depth := 0 }]
        visited := setAdd st.visited normalized }

/-- The state after seeding: empty results and trace, the seed loop folded
over `body.urls`. -/
def initState (env : Env) (body : ScrapeLinksRequest) : CrawlState :=
  body.urls.foldl (seedStep env) { results := [], visited := [], queue := [], trace := [] }

/-- Termination measure for the `while` loop: each iteration shifts one
frontier item and enqueues at most one item per result it appends, while
the result count can grow toward `maxUrls` at most `maxUrls` times inside
the guard. -/
def loopMeasure (body : ScrapeLinksRequest) (st : CrawlState) : Nat :=
  st.queue.length + 2 * (body.maxUrls - st.results.length)

/-- The `while` loop run on bounded fuel: each funded iteration re-checks
the guard `queue.length > 0 && results.length < body.maxUrls`. -/
def crawlN (env : Env) (body : ScrapeLinksRequest) : Nat → CrawlState → CrawlState
  | 0, st => st
  | n + 1, st =>
    if st.queue ≠ [] ∧ st.results.length < body.maxUrls then
      crawlN env body n (crawlStep env body st)
    else st

/-- The `while` loop (lines 65–136).  `loopMeasure` strictly decreases at
every funded iteration (proved below), so `loopMeasure + 1` units of fuel
always reach the loop's exit condition; `crawlLoop_eq` below recovers the
exact one-step unfolding of the loop. -/
def crawlLoop (env : Env) (body : ScrapeLinksRequest) (st : CrawlState) : CrawlState :=
  crawlN env body (loopMeasure body st + 1) st

/-- The whole crawl of one request: seed, then loop to termination. -/
def runCrawl (env : Env) (body : ScrapeLinksRequest) : CrawlState :=
  crawlLoop env body (initState env body)

/-- The `stats` object of the response (lines 140–144). -/
structure CrawlStats where
  totalLinks : Nat
  visited : Nat
  remaining : Nat
deriving DecidableEq, Repr

/-- The success response (lines 138–145). -/
structure ScrapeResponse where
  results : List LinkResult
  stats : CrawlStats
deriving DecidableEq, Repr

/-- The returned object: results plus stats read off the final state. -/
def mkResponse (st : CrawlState) : ScrapeResponse :=
  { results := st.results
    stats :=
      { totalLinks := st.results.length
        visited := st.visited.length
        remaining := st.queue.length } }

/-- The success response of a validated request. -/
def scrapeLinks (env : Env) (body : ScrapeLinksRequest) : ScrapeResponse :=
  mkResponse (runCrawl env body)

/-- The error thrown by `createError` (lines 33–36). -/
structure ApiError where
  statusCode : Nat
  message : String
deriving DecidableEq, Repr

/-- The validated request: `urls` replaced by its array value. -/
def RawRequest.toTyped (raw : RawRequest) : ScrapeLinksRequest :=
  { urls := raw.urls.asArray
    recursive := raw.recursive
    maxUrls := raw.maxUrls
    maxDepth := raw.maxDepth
    rateLimit := raw.rateLimit
    sameDomainOnly := raw.sameDomainOnly }

/-- The event handler (lines 29–146): validate
`!body.urls || !Array.isArray(body.urls)` and throw the 400 error, or run
the crawl and return the response. -/
def scrapeLinksHandler (env : Env) (raw : RawRequest) : Except ApiError ScrapeResponse :=
  if !raw.urls.truthy || !raw.urls.isArray then
    Except.error { statusCode := 400, message := "urls array required" }
  else
    Except.ok (scrapeLinks env raw.toTyped)

/-! ### Basic lemmas about the `Set` model -/

theorem subset_setAdd (s : List String) (x : String) : s ⊆ setAdd s x := by
  unfold setAdd
  split
  · exact fun a ha => ha
  · exact fun a ha => List.mem_append_left _ ha

theorem mem_setAdd_self (s : List String) (x : String) : x ∈ setAdd s x := by
  unfold setAdd
  split
  · assumption
  · simp

theorem mem_setAdd_iff (s : List String) (x y : String) :
    y ∈ setAdd s x ↔ y ∈ s ∨ y = x := by
  unfold setAdd
  split
  · rename_i hx
    constructor
    · exact fun h => Or.inl h
    · rintro (h | rfl) <;> assumption
  · simp

theorem setAdd_nodup (s : List String) (x : String) (h : s.Nodup) :
    (setAdd s x).Nodup := by
  unfold setAdd
  split
  · exact h
  · rename_i hx
    simp [List.nodup_append, h, hx]

/-! ### Counting lemmas about `processLinks`

Each processed link appends exactly one result, and enqueues at most one
frontier item; the break guard keeps the result count at `maxUrls` once it
is reached. -/

theorem processLinks_counts (env : Env) (body : ScrapeLinksRequest) (item : FrontierItem) :
    ∀ (links : List DiscoveredLink) (st : CrawlState),
      (processLinks env body item links st).1.queue.length + st.results.length
          ≤ st.queue.length + (processLinks env body item links st).1.results.length
        ∧ st.results.length ≤ (processLinks env body item links st).1.results.length
        ∧ (processLinks env body item links st).1.results.length
            ≤ max st.results.length body.maxUrls
  | [], st => by simp [processLinks]
  | link :: rest, st => by
    have ih := processLinks_counts env body item rest
    simp only [processLinks]
    split
    · simp
    · rename_i hbreak
      simp only [not_le] at hbreak
      split
      · split
        · simp
          omega
        · split
          · rename_i hdom
            have h := ih { st with
              results := st.results ++ [mkLinkResult env item link]
              visited := setAdd st.visited link.targetUrl
              queue := st.queue ++ [{ url := link.targetUrl, depth := item.depth + 1 }]
              trace := (st.trace ++ [Event.request link.targetUrl]) ++ [Event.sleep (delayMs body / 2)] }
            simp at h ⊢
            omega
          · have h := ih { st with
              results := st.results ++ [mkLinkResult env item link]
              trace := (st.trace ++ [Event.request link.targetUrl]) ++ [Event.sleep (delayMs body / 2)] }
            simp at h ⊢
            omega
      · have h := ih { st with
          results := st.results ++ [mkLinkResult env item link]
          trace := (st.trace ++ [Event.request link.targetUrl]) ++ [Event.sleep (delayMs body / 2)] }
        simp at h ⊢
        omega

/-- Every result appended by the link loop is the `LinkResult` built by
lines 92–102 for one of the processed links. -/
theorem processLinks_results (env : Env) (body : ScrapeLinksRequest) (item : FrontierItem) :
    ∀ (links : List DiscoveredLink) (st : CrawlState),
      ∃ Δ, (processLinks env body item links st).1.results = st.results ++ Δ
        ∧ ∀ r ∈ Δ, ∃ link ∈ links, r = mkLinkResult env item link
  | [], st => by simp [processLinks]
  | link :: rest, st => by
    have ih := processLinks_results env body item rest
    simp only [processLinks]
    split
    · exact ⟨[], by simp⟩
    · split
      · split
        · exact ⟨[mkLinkResult env item link], by simp⟩
        · split
          · obtain ⟨Δ, hΔ, hall⟩ := ih { st with
              results := st.results ++ [mkLinkResult env item link]
              visited := setAdd st.visited link.targetUrl
              queue := st.queue ++ [{ url := link.targetUrl, depth := item.depth + 1 }]
              trace := (st.trace ++ [Event.request link.targetUrl]) ++ [Event.sleep (delayMs body / 2)] }
            refine ⟨mkLinkResult env item link :: Δ, ?_, ?_⟩
            · simpa using hΔ
            · intro r hr0
              rcases List.mem_cons.mp hr0 with rfl | hr
              · exact ⟨link, by simp⟩
              · obtain ⟨l, hl, hrl⟩ := hall r hr
                exact ⟨l, by simp [hl], hrl⟩
          · obtain ⟨Δ, hΔ, hall⟩ := ih { st with
              results := st.results ++ [mkLinkResult env item link]
              trace := (st.trace ++ [Event.request link.targetUrl]) ++ [Event.sleep (delayMs body / 2)] }
            refine ⟨mkLinkResult env item link :: Δ, ?_, ?_⟩
            · simpa using hΔ
            · intro r hr0
              rcases List.mem_cons.mp hr0 with rfl | hr
              · exact ⟨link, by simp⟩
              · obtain ⟨l, hl, hrl⟩ := hall r hr
                exact ⟨l, by simp [hl], hrl⟩
      · obtain ⟨Δ, hΔ, hall⟩ := ih { st with
          results := st.results ++ [mkLinkResult env item link]
          trace := (st.trace ++ [Event.request link.targetUrl]) ++ [Event.sleep (delayMs body / 2)] }
        refine ⟨mkLinkResult env item link :: Δ, ?_, ?_⟩
        · simpa using hΔ
        · intro r hr0
          rcases List.mem_cons.mp hr0 with rfl | hr
          · exact ⟨link, by simp⟩
          · obtain ⟨l, hl, hrl⟩ := hall r hr
            exact ⟨l, by simp [hl], hrl⟩

/-- The link loop only ever adds to the visited set. -/
theorem processLinks_visited_mono (env : Env) (body : ScrapeLinksRequest) (item : FrontierItem) :
    ∀ (links : List DiscoveredLink) (st : CrawlState),
      st.visited ⊆ (processLinks env body item links st).1.visited
  | [], st => by simp [processLinks]
  | link :: rest, st => by
    have ih := processLinks_visited_mono env body item rest
    simp only [processLinks]
    split
    · exact fun a ha => ha
    · split
      · split
        · exact fun a ha => ha
        · split
          · refine fun a ha => ih _ ?_
            exact subset_setAdd st.visited link.targetUrl ha
          · exact fun a ha => ih _ ha
      · exact fun a ha => ih _ ha

/-- When every processed link has a parseable target URL — as the spec
guarantees for the normalizer's outputs — the link loop never throws. -/
theorem processLinks_nothrow (env : Env) (body : ScrapeLinksRequest) (item : FrontierItem) :
    ∀ (links : List DiscoveredLink) (st : CrawlState),
      (∀ l ∈ links, (env.hostname l.targetUrl).isSome = true) →
      (processLinks env body item links st).2 = false
  | [], st => by simp [processLinks]
  | link :: rest, st => by
    intro hlinks
    have ih := processLinks_nothrow env body item rest
    have hrest : ∀ l ∈ rest, (env.hostname l.targetUrl).isSome = true :=
      fun l hl => hlinks l (by simp [hl])
    have hhead : (env.hostname link.targetUrl).isSome = true := hlinks link (by simp)
    simp only [processLinks]
    split
    · rfl
    · split
      · split
        · rename_i heq
          rw [heq] at hhead
          simp at hhead
        · split
          · exact ih _ hrest
          · exact ih _ hrest
      · exact ih _ hrest

/-- Everything the link loop appends to the frontier satisfies the
re-enqueue guard of lines 106–118: enqueued at `depth + 1` with no
`sourceUrl`, only when recursion is on, the link is internal, the current
depth is below `maxDepth`, the target was unvisited, and — under domain
scoping — the target's hostname is among the seed hostnames. -/
theorem processLinks_queue (env : Env) (body : ScrapeLinksRequest) (item : FrontierItem) :
    ∀ (links : List DiscoveredLink) (st : CrawlState),
      ∃ Δ, (processLinks env body item links st).1.queue = st.queue ++ Δ
        ∧ ∀ q ∈ Δ, q.depth = item.depth + 1 ∧ q.sourceUrl = none
            ∧ body.recursive = true ∧ item.depth < body.maxDepth
            ∧ q.url ∉ st.visited
            ∧ (∃ link ∈ links, link.isInternal = true ∧ q.url = link.targetUrl)
            ∧ (body.sameDomainOnly = true →
                ∃ d, env.hostname q.url = some d ∧ d ∈ baseDomains env body)
  | [], st => by simp [processLinks]
  | link :: rest, st => by
    have ih := processLinks_queue env body item rest
    simp only [processLinks]
    split
    · exact ⟨[], by simp⟩
    · split
      · rename_i hcond
        simp only [Bool.and_eq_true, Bool.not_eq_true', decide_eq_true_eq] at hcond
        obtain ⟨⟨⟨hrec, hint⟩, hdepth⟩, hnv⟩ := hcond
        have hnv' : link.targetUrl ∉ st.visited := by
          simpa using hnv
        split
        · exact ⟨[], by simp⟩
        · rename_i targetDomain heq
          split
          · rename_i hdom
            obtain ⟨Δ, hΔ, hall⟩ := ih { st with
              results := st.results ++ [mkLinkResult env item link]
              visited := setAdd st.visited link.targetUrl
              queue := st.queue ++ [{ url := link.targetUrl, depth := item.depth + 1 }]
              trace := (st.trace ++ [Event.request link.targetUrl]) ++ [Event.sleep (delayMs body / 2)] }
            refine ⟨{ url := link.targetUrl, depth := item.depth + 1 } :: Δ, ?_, ?_⟩
            · simpa using hΔ
            · intro q hq0
              rcases List.mem_cons.mp hq0 with rfl | hq
              · refine ⟨rfl, rfl, hrec, hdepth, hnv', ⟨link, by simp, hint, rfl⟩, ?_⟩
                intro hsd
                refine ⟨targetDomain, heq, ?_⟩
                rw [hsd] at hdom
                simpa using hdom
              · obtain ⟨h1, h2, h3, h4, h5, ⟨l, hl, hli, hlu⟩, h7⟩ := hall q hq
                refine ⟨h1, h2, h3, h4, ?_, ⟨l, by simp [hl], hli, hlu⟩, h7⟩
                intro hmem
                exact h5 (subset_setAdd st.visited link.targetUrl hmem)
          · obtain ⟨Δ, hΔ, hall⟩ := ih { st with
              results := st.results ++ [mkLinkResult env item link]
              trace := (st.trace ++ [Event.request link.targetUrl]) ++ [Event.sleep (delayMs body / 2)] }
            refine ⟨Δ, by simpa using hΔ, ?_⟩
            intro q hq
            obtain ⟨h1, h2, h3, h4, h5, ⟨l, hl, hli, hlu⟩, h7⟩ := hall q hq
            exact ⟨h1, h2, h3, h4, h5, ⟨l, by simp [hl], hli, hlu⟩, h7⟩
      · obtain ⟨Δ, hΔ, hall⟩ := ih { st with
          results := st.results ++ [mkLinkResult env item link]
          trace := (st.trace ++ [Event.request link.targetUrl]) ++ [Event.sleep (delayMs body / 2)] }
        refine ⟨Δ, by simpa using hΔ, ?_⟩
        intro q hq
        obtain ⟨h1, h2, h3, h4, h5, ⟨l, hl, hli, hlu⟩, h7⟩ := hall q hq
        exact ⟨h1, h2, h3, h4, h5, ⟨l, by simp [hl], hli, hlu⟩, h7⟩

/-- The crawl-wide dedup invariant on the mutable state: the visited set is
duplicate-free, every frontier URL is already visited, and no URL occurs
twice in the frontier. -/
def VisitedInv (st : CrawlState) : Prop :=
  st.visited.Nodup ∧ (∀ it ∈ st.queue, it.url ∈ st.visited)
    ∧ (st.queue.map FrontierItem.url).Nodup

/-- The link loop preserves the dedup invariant: a target is enqueued only
when unvisited, and is added to the visited set at the moment of enqueue. -/
theorem processLinks_visitedInv (env : Env) (body : ScrapeLinksRequest) (item : FrontierItem) :
    ∀ (links : List DiscoveredLink) (st : CrawlState),
      VisitedInv st → VisitedInv (processLinks env body item links st).1
  | [], st => by simpa [processLinks] using id
  | link :: rest, st => by
    intro hinv
    have ih := processLinks_visitedInv env body item rest
    obtain ⟨hnd, hqv, hqnd⟩ := hinv
    simp only [processLinks]
    split
    · exact ⟨hnd, hqv, hqnd⟩
    · split
      · rename_i hcond
        simp only [Bool.and_eq_true, Bool.not_eq_true', decide_eq_true_eq] at hcond
        have hnv' : link.targetUrl ∉ st.visited := by
          simpa using hcond.2
        split
        · exact ⟨hnd, hqv, hqnd⟩
        · split
          · refine ih _ ⟨setAdd_nodup _ _ hnd, ?_, ?_⟩
            · intro it hit
              rcases List.mem_append.mp hit with hit | hit
              · exact subset_setAdd _ _ (hqv it hit)
              · rcases List.mem_singleton.mp hit with rfl
                exact mem_setAdd_self _ _
            · rw [List.map_append]
              rw [List.nodup_append]
              refine ⟨hqnd, List.nodup_singleton _, ?_⟩
              intro u hu hu1
              have hu2 : u = link.targetUrl := by simpa using hu1
              obtain ⟨it, hit, hitu⟩ := List.mem_map.mp hu
              apply hnv'
              rw [← hu2, ← hitu]
              exact hqv it hit
          · exact ih _ ⟨hnd, hqv, hqnd⟩
      · exact ih _ ⟨hnd, hqv, hqnd⟩

/-- The delays the link loop enforces, exactly: when neither the `maxUrls`
break nor a URL-parse throw occurs, each processed link contributes one
outbound redirect-check request immediately followed by a sleep of half
the configured delay — and nothing else.  In particular no sleep precedes
the first link's check. -/
theorem processLinks_trace (env : Env) (body : ScrapeLinksRequest) (item : FrontierItem) :
    ∀ (links : List DiscoveredLink) (st : CrawlState),
      (∀ l ∈ links, (env.hostname l.targetUrl).isSome = true) →
      st.results.length + links.length ≤ body.maxUrls →
      (processLinks env body item links st).1.trace
        = st.trace
          ++ (links.map fun l =>
                [Event.request l.targetUrl, Event.sleep (delayMs body / 2)]).flatten
  | [], st => by simp [processLinks]
  | link :: rest, st => by
    intro hlinks hcap
    have ih := processLinks_trace env body item rest
    have hrest : ∀ l ∈ rest, (env.hostname l.targetUrl).isSome = true :=
      fun l hl => hlinks l (by simp [hl])
    have hhead : (env.hostname link.targetUrl).isSome = true := hlinks link (by simp)
    simp only [List.length_cons] at hcap
    simp only [processLinks]
    split
    · rename_i hbreak
      omega
    · split
      · split
        · rename_i heq
          rw [heq] at hhead
          simp at hhead
        · split
          · rw [ih _ hrest (by simp; omega)]
            simp
          · rw [ih _ hrest (by simp; omega)]
            simp
      · rw [ih _ hrest (by simp; omega)]
        simp

/-! ### Termination of the `while` loop

Each funded iteration strictly decreases `loopMeasure`: it shifts one
frontier item, enqueues at most one item per appended result, and the break
guard caps how far the result count climbs. -/

/-- The state passed into the link loop by one iteration dequeuing `item`:
head shifted, the pre-fetch rate-limit sleep (skipped while no results
exist) and the page-fetch request recorded. -/
def preState (body : ScrapeLinksRequest) (st : CrawlState) (item : FrontierItem)
    (rest : List FrontierItem) : CrawlState :=
  { st with
    queue := rest
    trace := st.trace
      ++ (if 0 < st.results.length then [Event.sleep (delayMs body)] else [])
      ++ [Event.request item.url] }

theorem crawlStep_nil (env : Env) (body : ScrapeLinksRequest) (st : CrawlState)
    (h : st.queue = []) : crawlStep env body st = st := by
  simp only [crawlStep, h]

/-- One iteration whose page fetch throws: the catch block appends exactly
the failure record and nothing else changes besides the dequeue. -/
theorem crawlStep_error (env : Env) (body : ScrapeLinksRequest) (st : CrawlState)
    (item : FrontierItem) (rest : List FrontierItem) (e : String)
    (hq : st.queue = item :: rest) (hf : env.fetchHtml item.url = Except.error e) :
    crawlStep env body st
      = { preState body st item rest with
          results := st.results ++ [mkFailureResult item e] } := by
  simp only [crawlStep, hq, hf, preState]

/-- One iteration whose page fetch succeeds: the result is the link loop's
final state, plus the catch-block failure record when the loop threw. -/
theorem crawlStep_ok (env : Env) (body : ScrapeLinksRequest) (st : CrawlState)
    (item : FrontierItem) (rest : List FrontierItem) (anchors : List RawAnchor)
    (st1 : CrawlState) (b : Bool)
    (hq : st.queue = item :: rest) (hf : env.fetchHtml item.url = Except.ok anchors)
    (hpl : processLinks env body item (extractLinks env anchors item.url)
      (preState body st item rest) = (st1, b)) :
    crawlStep env body st
      = if b then { st1 with results := st1.results ++ [mkFailureResult item "Invalid URL"] }
        else st1 := by
  simp only [crawlStep, hq, hf, preState] at hpl ⊢
  rw [hpl]
  cases b
  · rfl
  · rfl

theorem crawlStep_measure_lt (env : Env) (body : ScrapeLinksRequest) (st : CrawlState)
    (hq : st.queue ≠ []) (hlen : st.results.length < body.maxUrls) :
    loopMeasure body (crawlStep env body st) < loopMeasure body st := by
  cases hq2 : st.queue with
  | nil => exact absurd hq2 hq
  | cons item rest =>
    cases hfetch : env.fetchHtml item.url with
    | error e =>
      rw [crawlStep_error env body st item rest e hq2 hfetch]
      simp [loopMeasure, hq2, preState]
      omega
    | ok anchors =>
      rcases hpl : processLinks env body item (extractLinks env anchors item.url)
        (preState body st item rest) with ⟨st1, b⟩
      have hc := processLinks_counts env body item (extractLinks env anchors item.url)
        (preState body st item rest)
      rw [hpl] at hc
      simp [preState] at hc
      rw [crawlStep_ok env body st item rest anchors st1 b hq2 hfetch hpl]
      cases b with
      | true =>
        simp [loopMeasure, hq2]
        omega
      | false =>
        simp [loopMeasure, hq2]
        omega

/-- Fuel does not matter once it exceeds the measure: any two sufficient
fuel values run the loop to the same state. -/
theorem crawlN_congr (env : Env) (body : ScrapeLinksRequest) :
    ∀ (n m : Nat) (st : CrawlState),
      loopMeasure body st < n → loopMeasure body st < m →
      crawlN env body n st = crawlN env body m st
  | 0, _, _, hn, _ => absurd hn (Nat.not_lt_zero _)
  | _ + 1, 0, _, _, hm => absurd hm (Nat.not_lt_zero _)
  | n + 1, m + 1, st, hn, hm => by
    simp only [crawlN]
    split
    · rename_i h
      have hlt := crawlStep_measure_lt env body st h.1 h.2
      exact crawlN_congr env body n m (crawlStep env body st)
        (by omega) (by omega)
    · rfl

/-- The defining one-step unfolding of the `while` loop (lines 65–136):
run one iteration while `queue.length > 0 && results.length < maxUrls`,
stop otherwise. -/
theorem crawlLoop_eq (env : Env) (body : ScrapeLinksRequest) (st : CrawlState) :
    crawlLoop env body st
      = if st.queue ≠ [] ∧ st.results.length < body.maxUrls then
          crawlLoop env body (crawlStep env body st)
        else st := by
  unfold crawlLoop
  split
  · rename_i h
    have h1 : crawlN env body (loopMeasure body st + 1) st
        = crawlN env body (loopMeasure body st) (crawlStep env body st) := by
      simp only [crawlN]
      rw [if_pos h]
    rw [h1]
    exact crawlN_congr env body _ _ _
      (crawlStep_measure_lt env body st h.1 h.2) (Nat.lt_succ_self _)
  · rename_i h
    simp only [crawlN]
    rw [if_neg h]

/-- Any property preserved by a funded iteration holds of the loop's final
state. -/
theorem crawlLoop_inv (env : Env) (body : ScrapeLinksRequest) (P : CrawlState → Prop)
    (hstep : ∀ st, st.queue ≠ [] → st.results.length < body.maxUrls →
      P st → P (crawlStep env body st))
    (st : CrawlState) (hP : P st) : P (crawlLoop env body st) := by
  rw [crawlLoop_eq]
  split
  · rename_i h
    exact crawlLoop_inv env body P hstep (crawlStep env body st) (hstep st h.1 h.2 hP)
  · exact hP
termination_by loopMeasure body st
decreasing_by rename_i h; exact crawlStep_measure_lt env body st h.1 h.2

/-- The loop stops only for one of its two exit reasons: the frontier is
empty, or the result count has reached `maxUrls`. -/
theorem crawlLoop_terminal (env : Env) (body : ScrapeLinksRequest) (st : CrawlState) :
    (crawlLoop env body st).queue = []
      ∨ body.maxUrls ≤ (crawlLoop env body st).results.length := by
  rw [crawlLoop_eq]
  split
  · exact crawlLoop_terminal env body (crawlStep env body st)
  · rename_i h
    rcases not_and_or.mp h with h | h
    · exact Or.inl (not_not.mp h)
    · exact Or.inr (Nat.not_lt.mp h)
termination_by loopMeasure body st
decreasing_by rename_i h; exact crawlStep_measure_lt env body st h.1 h.2

/-! ### What the seed loop establishes -/

/-- The state shape produced by seeding (lines 39–50): no results or trace
yet, the dedup invariant holds, and every frontier item is a seed at depth
0 with no `sourceUrl`. -/
def SeedInv (st : CrawlState) : Prop :=
  st.results = [] ∧ st.trace = [] ∧ VisitedInv st
    ∧ ∀ it ∈ st.queue, it.depth = 0 ∧ it.sourceUrl = none

theorem seedStep_preserves (env : Env) (st : CrawlState) (url : String)
    (h : SeedInv st) : SeedInv (seedStep env st url) := by
  obtain ⟨hres, htr, ⟨hnd, hqv, hqnd⟩, hitems⟩ := h
  unfold seedStep
  cases hnorm : env.normalizeUrl url with
  | none => exact ⟨hres, htr, ⟨hnd, hqv, hqnd⟩, hitems⟩
  | some normalized =>
    dsimp only
    split
    · exact ⟨hres, htr, ⟨hnd, hqv, hqnd⟩, hitems⟩
    · split
      · exact ⟨hres, htr, ⟨hnd, hqv, hqnd⟩, hitems⟩
      · rename_i hne hcont
        have hnv : normalized ∉ st.visited := by simpa using hcont
        refine ⟨hres, htr, ⟨setAdd_nodup _ _ hnd, ?_, ?_⟩, ?_⟩
        · intro it hit
          rcases List.mem_append.mp hit with hit | hit
          · exact subset_setAdd _ _ (hqv it hit)
          · rcases List.mem_singleton.mp hit with rfl
            exact mem_setAdd_self _ _
        · rw [List.map_append, List.nodup_append]
          refine ⟨hqnd, List.nodup_singleton _, ?_⟩
          intro u hu hu1
          have hu2 : u = normalized := by simpa using hu1
          obtain ⟨it, hit, hitu⟩ := List.mem_map.mp hu
          apply hnv
          rw [← hu2, ← hitu]
          exact hqv it hit
        · intro it hit
          rcases List.mem_append.mp hit with hit | hit
          · exact hitems it hit
          · rcases List.mem_singleton.mp hit with rfl
            exact ⟨rfl, rfl⟩

theorem seedFold_preserves (env : Env) :
    ∀ (urls : List String) (st : CrawlState),
      SeedInv st → SeedInv (urls.foldl (seedStep env) st)
  | [], _ => id
  | u :: us, st => fun h =>
    seedFold_preserves env us (seedStep env st u) (seedStep_preserves env st u h)

/-- The seeded initial state satisfies `SeedInv`. -/
theorem initState_spec (env : Env) (body : ScrapeLinksRequest) :
    SeedInv (initState env body) := by
  unfold initState
  exact seedFold_preserves env body.urls _
    ⟨rfl, rfl, ⟨List.nodup_nil, by simp, by simp⟩, by simp⟩

/-! ### Step-level corollaries -/

theorem crawlStep_ok_nothrow (env : Env) (body : ScrapeLinksRequest) (st : CrawlState)
    (item : FrontierItem) (rest : List FrontierItem) (anchors : List RawAnchor)
    (st1 : CrawlState)
    (hq : st.queue = item :: rest) (hf : env.fetchHtml item.url = Except.ok anchors)
    (hpl : processLinks env body item (extractLinks env anchors item.url)
      (preState body st item rest) = (st1, false)) :
    crawlStep env body st = st1 := by
  rw [crawlStep_ok env body st item rest anchors st1 false hq hf hpl]
  rfl

theorem crawlStep_ok_throw (env : Env) (body : ScrapeLinksRequest) (st : CrawlState)
    (item : FrontierItem) (rest : List FrontierItem) (anchors : List RawAnchor)
    (st1 : CrawlState)
    (hq : st.queue = item :: rest) (hf : env.fetchHtml item.url = Except.ok anchors)
    (hpl : processLinks env body item (extractLinks env anchors item.url)
      (preState body st item rest) = (st1, true)) :
    crawlStep env body st
      = { st1 with results := st1.results ++ [mkFailureResult item "Invalid URL"] } := by
  rw [crawlStep_ok env body st item rest anchors st1 true hq hf hpl]
  rfl

/-- Under the spec's guarantee on the normalizer, every link the extractor
emits has a parseable target (so the re-enqueue `new URL` cannot throw). -/
theorem extractLinks_hostname (env : Env) (hwf : EnvWF env)
    (anchors : List RawAnchor) (pageUrl : String) :
    ∀ l ∈ extractLinks env anchors pageUrl, (env.hostname l.targetUrl).isSome = true := by
  intro l hl
  unfold extractLinks at hl
  obtain ⟨a, ha, hfa⟩ := List.mem_filterMap.mp hl
  cases hn : env.normalizeUrl a.href with
  | none =>
    rw [hn] at hfa
    simp at hfa
  | some t =>
    rw [hn] at hfa
    simp only [Option.some.injEq] at hfa
    subst hfa
    exact hwf a.href t hn

/-- One funded iteration keeps the result count within `maxUrls`, given a
well-formed normalizer (faithful to the spec's §4.1 output guarantee). -/
theorem crawlStep_results_le (env : Env) (body : ScrapeLinksRequest) (hwf : EnvWF env)
    (st : CrawlState) (hq : st.queue ≠ []) (hlen : st.results.length < body.maxUrls) :
    (crawlStep env body st).results.length ≤ body.maxUrls := by
  cases hq2 : st.queue with
  | nil => exact absurd hq2 hq
  | cons item rest =>
    cases hfetch : env.fetchHtml item.url with
    | error e =>
      rw [crawlStep_error env body st item rest e hq2 hfetch]
      simp [preState]
      omega
    | ok anchors =>
      rcases hpl : processLinks env body item (extractLinks env anchors item.url)
        (preState body st item rest) with ⟨st1, b⟩
      have hb := processLinks_nothrow env body item (extractLinks env anchors item.url)
        (preState body st item rest) (extractLinks_hostname env hwf anchors item.url)
      rw [hpl] at hb
      simp at hb
      subst hb
      have hc := processLinks_counts env body item (extractLinks env anchors item.url)
        (preState body st item rest)
      rw [hpl] at hc
      simp [preState] at hc
      rw [crawlStep_ok_nothrow env body st item rest anchors st1 hq2 hfetch hpl]
      omega

/-- One iteration preserves the dedup invariant. -/
theorem crawlStep_visitedInv (env : Env) (body : ScrapeLinksRequest) (st : CrawlState)
    (h : VisitedInv st) : VisitedInv (crawlStep env body st) := by
  cases hq2 : st.queue with
  | nil =>
    rw [crawlStep_nil env body st hq2]
    exact h
  | cons item rest =>
    have h0 : VisitedInv (preState body st item rest) := by
      obtain ⟨hnd, hqv, hqnd⟩ := h
      refine ⟨hnd, ?_, ?_⟩
      · intro it hit
        exact hqv it (by rw [hq2]; exact List.mem_cons_of_mem _ hit)
      · rw [hq2] at hqnd
        simpa using (List.nodup_cons.mp (by simpa using hqnd)).2
    cases hfetch : env.fetchHtml item.url with
    | error e =>
      rw [crawlStep_error env body st item rest e hq2 hfetch]
      exact h0
    | ok anchors =>
      rcases hpl : processLinks env body item (extractLinks env anchors item.url)
        (preState body st item rest) with ⟨st1, b⟩
      have h1 := processLinks_visitedInv env body item (extractLinks env anchors item.url)
        (preState body st item rest) h0
      rw [hpl] at h1
      cases b with
      | true =>
        rw [crawlStep_ok_throw env body st item rest anchors st1 hq2 hfetch hpl]
        exact h1
      | false =>
        rw [crawlStep_ok_nothrow env body st item rest anchors st1 hq2 hfetch hpl]
        exact h1

/-! ### Breadth-first structure -/

/-- The breadth-first invariant of the crawl: frontier depths are
non-decreasing and within one of each other (a FIFO frontier), emitted
result depths are non-decreasing, and every emitted result is no deeper
than anything still queued. -/
def BfsInv (st : CrawlState) : Prop :=
  List.Pairwise (fun a b => a ≤ b) (st.queue.map FrontierItem.depth)
  ∧ List.Pairwise (fun a b => b ≤ a + 1) (st.queue.map FrontierItem.depth)
  ∧ List.Pairwise (fun a b => a ≤ b) (st.results.map LinkResult.depth)
  ∧ ∀ r ∈ st.results, ∀ q ∈ st.queue, r.depth ≤ q.depth

/-- The pure list content of one breadth-first step: dequeuing the head,
appending results only at the head's depth and frontier items only at the
head's depth plus one, preserves the invariant. -/
theorem bfsInv_shape (item : FrontierItem) (rest : List FrontierItem)
    (results : List LinkResult) (dr : List LinkResult) (dq : List FrontierItem)
    (hdr : ∀ r ∈ dr, r.depth = item.depth)
    (hdq : ∀ q ∈ dq, q.depth = item.depth + 1)
    (h1 : List.Pairwise (fun a b => a ≤ b) ((item :: rest).map FrontierItem.depth))
    (h2 : List.Pairwise (fun a b => b ≤ a + 1) ((item :: rest).map FrontierItem.depth))
    (h3 : List.Pairwise (fun a b => a ≤ b) (results.map LinkResult.depth))
    (h4 : ∀ r ∈ results, ∀ q ∈ item :: rest, r.depth ≤ q.depth) :
    List.Pairwise (fun a b => a ≤ b) ((rest ++ dq).map FrontierItem.depth)
    ∧ List.Pairwise (fun a b => b ≤ a + 1) ((rest ++ dq).map FrontierItem.depth)
    ∧ List.Pairwise (fun a b => a ≤ b) ((results ++ dr).map LinkResult.depth)
    ∧ ∀ r ∈ results ++ dr, ∀ q ∈ rest ++ dq, r.depth ≤ q.depth := by
  rw [List.map_cons, List.pairwise_cons] at h1 h2
  obtain ⟨h1a, h1b⟩ := h1
  obtain ⟨h2a, h2b⟩ := h2
  have hrest_lo : ∀ q ∈ rest, item.depth ≤ q.depth := fun q hq =>
    h1a q.depth (List.mem_map_of_mem _ hq)
  have hrest_hi : ∀ q ∈ rest, q.depth ≤ item.depth + 1 := fun q hq =>
    h2a q.depth (List.mem_map_of_mem _ hq)
  have hres_le : ∀ r ∈ results, r.depth ≤ item.depth := fun r hr =>
    h4 r hr item (List.mem_cons_self _ _)
  refine ⟨?_, ?_, ?_, ?_⟩
  · rw [List.map_append, List.pairwise_append]
    refine ⟨h1b, ?_, ?_⟩
    · exact List.pairwise_of_forall_mem_list fun a ha b hb => by
        obtain ⟨qa, hqa, rfl⟩ := List.mem_map.mp ha
        obtain ⟨qb, hqb, rfl⟩ := List.mem_map.mp hb
        rw [hdq qa hqa, hdq qb hqb]
    · intro a ha b hb
      obtain ⟨qa, hqa, rfl⟩ := List.mem_map.mp ha
      obtain ⟨qb, hqb, rfl⟩ := List.mem_map.mp hb
      rw [hdq qb hqb]
      exact hrest_hi qa hqa
  · rw [List.map_append, List.pairwise_append]
    refine ⟨h2b, ?_, ?_⟩
    · exact List.pairwise_of_forall_mem_list fun a ha b hb => by
        obtain ⟨qa, hqa, rfl⟩ := List.mem_map.mp ha
        obtain ⟨qb, hqb, rfl⟩ := List.mem_map.mp hb
        rw [hdq qa hqa, hdq qb hqb]
        omega
    · intro a ha b hb
      obtain ⟨qa, hqa, rfl⟩ := List.mem_map.mp ha
      obtain ⟨qb, hqb, rfl⟩ := List.mem_map.mp hb
      rw [hdq qb hqb]
      have := hrest_lo qa hqa
      omega
  · rw [List.map_append, List.pairwise_append]
    refine ⟨h3, ?_, ?_⟩
    · exact List.pairwise_of_forall_mem_list fun a ha b hb => by
        obtain ⟨ra, hra, rfl⟩ := List.mem_map.mp ha
        obtain ⟨rb, hrb, rfl⟩ := List.mem_map.mp hb
        rw [hdr ra hra, hdr rb hrb]
    · intro a ha b hb
      obtain ⟨ra, hra, rfl⟩ := List.mem_map.mp ha
      obtain ⟨rb, hrb, rfl⟩ := List.mem_map.mp hb
      rw [hdr rb hrb]
      exact hres_le ra hra
  · intro r hr q hq
    rcases List.mem_append.mp hr with hr | hr <;>
      rcases List.mem_append.mp hq with hq | hq
    · exact h4 r hr q (List.mem_cons_of_mem _ hq)
    · rw [hdq q hq]
      have := hres_le r hr
      omega
    · rw [hdr r hr]
      exact hrest_lo q hq
    · rw [hdr r hr, hdq q hq]
      omega

/-- One iteration preserves the breadth-first invariant: every result it
appends carries the dequeued item's depth, every frontier item it enqueues
carries that depth plus one. -/
theorem crawlStep_bfsInv (env : Env) (body : ScrapeLinksRequest) (st : CrawlState)
    (h : BfsInv st) : BfsInv (crawlStep env body st) := by
  cases hq2 : st.queue with
  | nil =>
    rw [crawlStep_nil env body st hq2]
    exact h
  | cons item rest =>
    obtain ⟨h1, h2, h3, h4⟩ := h
    rw [hq2] at h1 h2
    have h4' : ∀ r ∈ st.results, ∀ q ∈ item :: rest, r.depth ≤ q.depth := by
      intro r hr q hq
      exact h4 r hr q (by rw [hq2]; exact hq)
    cases hfetch : env.fetchHtml item.url with
    | error e =>
      rw [crawlStep_error env body st item rest e hq2 hfetch]
      have hs := bfsInv_shape item rest st.results [mkFailureResult item e] []
        (by intro r hr; rcases List.mem_singleton.mp hr with rfl; rfl)
        (by intro q hq; simp at hq)
        h1 h2 h3 h4'
      refine ⟨by simpa [preState] using hs.1, by simpa [preState] using hs.2.1,
        by simpa [preState] using hs.2.2.1, ?_⟩
      intro r hr q hq
      simp only [preState] at hr hq
      exact hs.2.2.2 r (by simpa using hr) q (by simpa using hq)
    | ok anchors =>
      rcases hpl : processLinks env body item (extractLinks env anchors item.url)
        (preState body st item rest) with ⟨st1, b⟩
      obtain ⟨dr, hdrE, hdrAll⟩ := processLinks_results env body item
        (extractLinks env anchors item.url) (preState body st item rest)
      obtain ⟨dq, hdqE, hdqAll⟩ := processLinks_queue env body item
        (extractLinks env anchors item.url) (preState body st item rest)
      rw [hpl] at hdrE hdqE
      simp only [preState] at hdrE hdqE
      have hdrD : ∀ r ∈ dr, r.depth = item.depth := by
        intro r hr
        obtain ⟨l, _, rfl⟩ := hdrAll r hr
        rfl
      have hdqD : ∀ q ∈ dq, q.depth = item.depth + 1 := fun q hq => (hdqAll q hq).1
      cases b with
      | false =>
        rw [crawlStep_ok_nothrow env body st item rest anchors st1 hq2 hfetch hpl]
        have hs := bfsInv_shape item rest st.results dr dq hdrD hdqD h1 h2 h3 h4'
        refine ⟨?_, ?_, ?_, ?_⟩
        · rw [hdqE]
          exact hs.1
        · rw [hdqE]
          exact hs.2.1
        · rw [hdrE]
          exact hs.2.2.1
        · intro r hr q hq
          rw [hdrE] at hr
          rw [hdqE] at hq
          exact hs.2.2.2 r hr q hq
      | true =>
        rw [crawlStep_ok_throw env body st item rest anchors st1 hq2 hfetch hpl]
        have hdrD2 : ∀ r ∈ dr ++ [mkFailureResult item "Invalid URL"], r.depth = item.depth := by
          intro r hr
          rcases List.mem_append.mp hr with hr | hr
          · exact hdrD r hr
          · rcases List.mem_singleton.mp hr with rfl
            rfl
        have hs := bfsInv_shape item rest st.results
          (dr ++ [mkFailureResult item "Invalid URL"]) dq hdrD2 hdqD h1 h2 h3 h4'
        refine ⟨?_, ?_, ?_, ?_⟩
        · rw [hdqE]
          exact hs.1
        · rw [hdqE]
          exact hs.2.1
        · show ((st1.results ++ [mkFailureResult item "Invalid URL"]).map LinkResult.depth).Pairwise _
          rw [hdrE, List.append_assoc]
          exact hs.2.2.1
        · intro r hr q hq
          have hr2 : r ∈ st.results ++ (dr ++ [mkFailureResult item "Invalid URL"]) := by
            rw [← List.append_assoc, ← hdrE]
            simpa using hr
          rw [hdqE] at hq
          exact hs.2.2.2 r hr2 q hq

/-! ### Enforced inter-request intervals -/

/-- Accumulates, between each pair of consecutive `request` events of a
trace, the total enforced sleep time; `seen` tracks whether a first request
has occurred, `acc` the sleep accumulated since the last request. -/
def gapsAux : List Event → Bool → ℚ → List ℚ
  | [], _, _ => []
  | Event.sleep d :: rest, seen, acc => gapsAux rest seen (acc + d)
  | Event.request _ :: rest, seen, acc =>
    if seen then acc :: gapsAux rest true 0 else gapsAux rest true 0

/-- The list of enforced delays between consecutive outbound requests of a
trace (one entry per adjacent request pair). -/
def requestGaps (tr : List Event) : List ℚ :=
  gapsAux tr false 0

/-- The property claimed of the rate limiter: every pair of consecutive
outbound requests is separated by enforced sleeps summing to at least the
given interval. -/
def MinIntervalEnforced (interval : ℚ) (tr : List Event) : Prop :=
  ∀ g ∈ requestGaps tr, interval ≤ g

/-! ### Concrete instances used by witnesses and counterexamples -/

/-- A network where every page fetch fails at transport level. -/
def envDown : Env :=
  { normalizeUrl := fun s => some s
    hostname := fun _ => some "a"
    fetchHtml := fun _ => Except.error "ECONNREFUSED"
    getRedirectChain := fun _ => { finalStatus := 0, chain := [], error := some "ECONNREFUSED" } }

/-- A one-page site: the seed page links to two same-host pages, everything
else is down. -/
def envTwo : Env :=
  { normalizeUrl := fun s => some s
    hostname := fun _ => some "a"
    fetchHtml := fun u =>
      if u = "http://a/" then
        Except.ok [{ href := "http://a/x", anchorText := "x", rel := [] },
                   { href := "http://a/y", anchorText := "y", rel := ["nofollow"] }]
      else Except.error "ECONNREFUSED"
    getRedirectChain := fun u =>
      { finalStatus := 200, chain := [{ url := u, status := 200 }], error := none } }

/-- One seed, non-recursive, 1 request/s (so a 1000 ms configured delay). -/
def bodyOne : ScrapeLinksRequest :=
  { urls := ["http://a/"]
    recursive := false
    maxUrls := 10
    maxDepth := 1
    rateLimit := 1
    sameDomainOnly := false }

/-- One seed, recursive with domain scoping, 2 requests/s. -/
def bodyRec : ScrapeLinksRequest :=
  { urls := ["http://a/"]
    recursive := true
    maxUrls := 5
    maxDepth := 2
    rateLimit := 2
    sameDomainOnly := true }

/-- A one-item crawl state as it stands right after seeding `bodyOne`. -/
def stOne : CrawlState :=
  { results := []
    visited := ["http://a/"]
    queue := [{ url := "http://a/", depth := 0 }]
    trace := [] }

/-! ### The claims -/

/-- Claim C1: for every request with a valid urls array, the length of the
returned results sequence never exceeds `maxUrls`: each funded iteration of
the crawl loop (page fetch, per-link resolution, failure recording)
preserves `results.length ≤ maxUrls`, and so the final result sequence is
capped.  The normalizer well-formedness hypothesis is the spec §4.1
guarantee that normalized URLs are parseable. -/
theorem c1_results_capped (env : Env) (body : ScrapeLinksRequest) (hwf : EnvWF env) :
    (∀ st, st.queue ≠ [] → st.results.length < body.maxUrls →
        (crawlStep env body st).results.length ≤ body.maxUrls)
    ∧ (runCrawl env body).results.length ≤ body.maxUrls := by
  refine ⟨fun st h1 h2 => crawlStep_results_le env body hwf st h1 h2, ?_⟩
  have hinit : (initState env body).results.length ≤ body.maxUrls := by
    rw [(initState_spec env body).1]
    simp
  exact crawlLoop_inv env body (fun s => s.results.length ≤ body.maxUrls)
    (fun s hq hlen _ => crawlStep_results_le env body hwf s hq hlen)
    (initState env body) hinit

theorem c1_results_capped_witness :
    EnvWF envDown ∧ (runCrawl envDown bodyOne).results.length ≤ bodyOne.maxUrls :=
  ⟨fun _ _ _ => rfl, (c1_results_capped envDown bodyOne (fun _ _ _ => rfl)).2⟩

/-- Claim C2: a discovered link is enqueued (at depth `parentDepth + 1`)
only if recursion is on, the link is internal, the parent's depth is below
`maxDepth`, the target is not yet visited, and — with `sameDomainOnly` —
the target's hostname is among the seed hostnames; with `recursive = false`
nothing is ever enqueued. -/
theorem c2_enqueue_guard (env : Env) (body : ScrapeLinksRequest)
    (st : CrawlState) (item : FrontierItem) (rest : List FrontierItem)
    (hq : st.queue = item :: rest) :
    (∀ it ∈ (crawlStep env body st).queue, it ∈ rest ∨
      (body.recursive = true ∧ item.depth < body.maxDepth ∧ it.url ∉ st.visited
        ∧ it.depth = item.depth + 1
        ∧ (∃ anchors, env.fetchHtml item.url = Except.ok anchors
            ∧ ∃ link ∈ extractLinks env anchors item.url,
                link.isInternal = true ∧ it.url = link.targetUrl)
        ∧ (body.sameDomainOnly = true →
            ∃ d, env.hostname it.url = some d ∧ d ∈ baseDomains env body)))
    ∧ (body.recursive = false → (crawlStep env body st).queue = rest) := by
  cases hfetch : env.fetchHtml item.url with
  | error e =>
    rw [crawlStep_error env body st item rest e hq hfetch]
    exact ⟨fun it hit => Or.inl (by simpa [preState] using hit), fun _ => rfl⟩
  | ok anchors =>
    rcases hpl : processLinks env body item (extractLinks env anchors item.url)
      (preState body st item rest) with ⟨st1, b⟩
    obtain ⟨dq, hdqE, hdqAll⟩ := processLinks_queue env body item
      (extractLinks env anchors item.url) (preState body st item rest)
    rw [hpl] at hdqE
    simp only [preState] at hdqE
    have hqueue : (crawlStep env body st).queue = rest ++ dq := by
      cases b with
      | true =>
        rw [crawlStep_ok_throw env body st item rest anchors st1 hq hfetch hpl]
        exact hdqE
      | false =>
        rw [crawlStep_ok_nothrow env body st item rest anchors st1 hq hfetch hpl]
        exact hdqE
    constructor
    · intro it hit
      rw [hqueue] at hit
      rcases List.mem_append.mp hit with hit | hit
      · exact Or.inl hit
      · obtain ⟨hd, _, hrec, hmd, hnv, ⟨l, hl, hint, hurl⟩, hdom⟩ := hdqAll it hit
        exact Or.inr ⟨hrec, hmd, by simpa [preState] using hnv, hd,
          ⟨anchors, rfl, ⟨l, hl, hint, hurl⟩⟩, hdom⟩
    · intro hrec
      have hdq_nil : dq = [] := by
        rcases dq with _ | ⟨q, qs⟩
        · rfl
        · have h3 := (hdqAll q (by simp)).2.2.1
          rw [hrec] at h3
          simp at h3
      rw [hqueue, hdq_nil, List.append_nil]

theorem c2_enqueue_guard_witness :
    (∀ it ∈ (crawlStep envTwo bodyRec stOne).queue, it ∈ ([] : List FrontierItem) ∨
      (bodyRec.recursive = true
        ∧ (⟨"http://a/", 0, none⟩ : FrontierItem).depth < bodyRec.maxDepth
        ∧ it.url ∉ stOne.visited
        ∧ it.depth = (⟨"http://a/", 0, none⟩ : FrontierItem).depth + 1
        ∧ (∃ anchors,
              envTwo.fetchHtml (⟨"http://a/", 0, none⟩ : FrontierItem).url
                = Except.ok anchors
            ∧ ∃ link ∈ extractLinks envTwo anchors
                  (⟨"http://a/", 0, none⟩ : FrontierItem).url,
                link.isInternal = true ∧ it.url = link.targetUrl)
        ∧ (bodyRec.sameDomainOnly = true →
            ∃ d, envTwo.hostname it.url = some d ∧ d ∈ baseDomains envTwo bodyRec)))
    ∧ (bodyRec.recursive = false → (crawlStep envTwo bodyRec stOne).queue = []) :=
  c2_enqueue_guard envTwo bodyRec stOne ⟨"http://a/", 0, none⟩ [] rfl

/-- Claim C3: each normalized URL is added to the visited set at most once
(the set stays duplicate-free), every frontier URL is in the visited set at
or before the moment it is enqueued (seeds at seeding time, links at
enqueue time), and consequently the frontier never holds two entries with
the same URL — at seeding, across every funded iteration, and at
termination. -/
theorem c3_visited_once (env : Env) (body : ScrapeLinksRequest) :
    VisitedInv (initState env body)
    ∧ (∀ st, VisitedInv st → VisitedInv (crawlStep env body st))
    ∧ VisitedInv (runCrawl env body) := by
  have hinit := (initState_spec env body).2.2.1
  exact ⟨hinit, fun st h => crawlStep_visitedInv env body st h,
    crawlLoop_inv env body VisitedInv
      (fun s _ _ hP => crawlStep_visitedInv env body s hP) (initState env body) hinit⟩

/-- Claim C4: with `recursive = true` the frontier is a FIFO queue whose
depths are non-decreasing (and stay within one of the head), so no result
for a page at depth `d + 1` is appended before every page at depth `d` has
been dequeued and fully expanded: the depth fields of successive results
are non-decreasing. -/
theorem c4_breadth_order (env : Env) (body : ScrapeLinksRequest)
    (hrec : body.recursive = true) :
    BfsInv (runCrawl env body)
    ∧ List.Pairwise (fun a b => a ≤ b)
        ((runCrawl env body).results.map LinkResult.depth) := by
  obtain ⟨hres, htr, hv, hitems⟩ := initState_spec env body
  have hinit : BfsInv (initState env body) := by
    refine ⟨?_, ?_, ?_, ?_⟩
    · exact List.pairwise_of_forall_mem_list fun a ha b hb => by
        obtain ⟨qa, hqa, rfl⟩ := List.mem_map.mp ha
        obtain ⟨qb, hqb, rfl⟩ := List.mem_map.mp hb
        rw [(hitems qa hqa).1, (hitems qb hqb).1]
    · exact List.pairwise_of_forall_mem_list fun a ha b hb => by
        obtain ⟨qa, hqa, rfl⟩ := List.mem_map.mp ha
        obtain ⟨qb, hqb, rfl⟩ := List.mem_map.mp hb
        rw [(hitems qa hqa).1, (hitems qb hqb).1]
        omega
    · rw [hres]
      exact List.Pairwise.nil
    · rw [hres]
      intro r hr
      simp at hr
  have h := crawlLoop_inv env body BfsInv
    (fun s _ _ hP => crawlStep_bfsInv env body s hP) (initState env body) hinit
  exact ⟨h, h.2.2.1⟩

theorem c4_breadth_order_witness :
    BfsInv (runCrawl envTwo bodyRec)
    ∧ List.Pairwise (fun a b => a ≤ b)
        ((runCrawl envTwo bodyRec).results.map LinkResult.depth) :=
  c4_breadth_order envTwo bodyRec rfl

/-- Claim C5: every result the link loop emits for a discovered link keeps
the link URL as originally discovered as its `targetUrl`, and its `status`
is the `finalStatus` the redirect-chain resolver computed for exactly that
discovered URL. -/
theorem c5_result_fields (env : Env) (body : ScrapeLinksRequest) (item : FrontierItem)
    (links : List DiscoveredLink) (st st1 : CrawlState) (b : Bool)
    (h : processLinks env body item links st = (st1, b)) :
    ∃ Δ, st1.results = st.results ++ Δ
      ∧ ∀ r ∈ Δ, ∃ link ∈ links, r.targetUrl = link.targetUrl
          ∧ r.status = (env.getRedirectChain link.targetUrl).finalStatus := by
  obtain ⟨Δ, hΔ, hall⟩ := processLinks_results env body item links st
  rw [h] at hΔ
  refine ⟨Δ, hΔ, fun r hr => ?_⟩
  obtain ⟨l, hl, rfl⟩ := hall r hr
  exact ⟨l, hl, rfl, rfl⟩

/-- One dequeued frontier item and one discovered link, for the witnesses. -/
def itemW : FrontierItem := { url := "http://a/", depth := 0 }

/-- A single already-classified discovered link, for the witnesses. -/
def linksW : List DiscoveredLink :=
  [{ targetUrl := "http://a/x", anchorText := "x", rel := [], isInternal := true }]

theorem c5_result_fields_witness :
    ∃ Δ, (processLinks envTwo bodyRec itemW linksW stOne).1.results
        = stOne.results ++ Δ
      ∧ ∀ r ∈ Δ, ∃ link ∈ linksW, r.targetUrl = link.targetUrl
          ∧ r.status = (envTwo.getRedirectChain link.targetUrl).finalStatus :=
  c5_result_fields envTwo bodyRec itemW linksW stOne
    (processLinks envTwo bodyRec itemW linksW stOne).1
    (processLinks envTwo bodyRec itemW linksW stOne).2 rfl

/-- Claim C6: the response stats are exact at termination — `totalLinks` is
the result count, `visited` the final size of the (duplicate-free) visited
set, `remaining` the frontier length when the loop stopped, and `remaining`
can be non-zero only because the max-URL cap was reached (never when the
loop stopped on an empty frontier). -/
theorem c6_stats_exact (env : Env) (body : ScrapeLinksRequest) :
    (scrapeLinks env body).stats.totalLinks = (scrapeLinks env body).results.length
    ∧ (scrapeLinks env body).stats.visited = (runCrawl env body).visited.length
    ∧ (runCrawl env body).visited.Nodup
    ∧ (scrapeLinks env body).stats.remaining = (runCrawl env body).queue.length
    ∧ ((scrapeLinks env body).stats.remaining ≠ 0 →
        body.maxUrls ≤ (scrapeLinks env body).stats.totalLinks) := by
  refine ⟨rfl, rfl, ?_, rfl, ?_⟩
  · exact (crawlLoop_inv env body VisitedInv
      (fun s _ _ hP => crawlStep_visitedInv env body s hP) (initState env body)
      (initState_spec env body).2.2.1).1
  · intro hrem
    rcases crawlLoop_terminal env body (initState env body) with h0 | h0
    · exfalso
      apply hrem
      show (crawlLoop env body (initState env body)).queue.length = 0
      rw [h0]
      rfl
    · exact h0

/-- Claim C7: when fetching a dequeued frontier page throws, the catch
block appends exactly one `LinkResult` for that page — `targetUrl` the
page's own URL, status 0, `error` populated — the visited set is untouched,
and the loop goes on with the rest of the frontier (no retry: the page is
not re-enqueued). -/
theorem c7_failure_recorded (env : Env) (body : ScrapeLinksRequest) (st : CrawlState)
    (item : FrontierItem) (rest : List FrontierItem) (e : String)
    (hq : st.queue = item :: rest)
    (hf : env.fetchHtml item.url = Except.error e) :
    (crawlStep env body st).results = st.results ++ [mkFailureResult item e]
    ∧ (crawlStep env body st).queue = rest
    ∧ (crawlStep env body st).visited = st.visited
    ∧ (mkFailureResult item e).targetUrl = item.url
    ∧ (mkFailureResult item e).status = 0
    ∧ (mkFailureResult item e).error = some e
    ∧ (st.results.length < body.maxUrls →
        crawlLoop env body st = crawlLoop env body (crawlStep env body st)) := by
  have hstep := crawlStep_error env body st item rest e hq hf
  refine ⟨by rw [hstep], by rw [hstep]; rfl, by rw [hstep]; rfl, rfl, rfl, rfl, ?_⟩
  intro hlen
  rw [crawlLoop_eq env body st, if_pos ⟨by rw [hq]; simp, hlen⟩]

theorem c7_failure_recorded_witness :
    (crawlStep envDown bodyOne stOne).results
        = stOne.results ++ [mkFailureResult ⟨"http://a/", 0, none⟩ "ECONNREFUSED"]
    ∧ (crawlStep envDown bodyOne stOne).queue = []
    ∧ (crawlStep envDown bodyOne stOne).visited = stOne.visited
    ∧ (mkFailureResult (⟨"http://a/", 0, none⟩ : FrontierItem) "ECONNREFUSED").targetUrl
        = (⟨"http://a/", 0, none⟩ : FrontierItem).url
    ∧ (mkFailureResult (⟨"http://a/", 0, none⟩ : FrontierItem) "ECONNREFUSED").status = 0
    ∧ (mkFailureResult (⟨"http://a/", 0, none⟩ : FrontierItem) "ECONNREFUSED").error
        = some "ECONNREFUSED"
    ∧ (stOne.results.length < bodyOne.maxUrls →
        crawlLoop envDown bodyOne stOne
          = crawlLoop envDown bodyOne (crawlStep envDown bodyOne stOne)) :=
  c7_failure_recorded envDown bodyOne stOne ⟨"http://a/", 0, none⟩ [] "ECONNREFUSED" rfl rfl

/-- Arrays are truthy in JavaScript, so the validation's truthiness check
is subsumed by `Array.isArray` when the field is an array. -/
theorem truthy_of_isArray (v : JsVal) (h : v.isArray = true) : v.truthy = true := by
  cases v <;> simp_all [JsVal.isArray, JsVal.truthy]

/-- Claim C8: the endpoint throws the 400 client error if and only if the
request body's `urls` field is not an array (missing included), and it does
so before any crawling work — the rejection is independent of the network
environment; for every other input the handler returns the normal crawl
response, never a top-level error. -/
theorem c8_validation_gate (env : Env) (raw : RawRequest) :
    (raw.urls.isArray = false →
      scrapeLinksHandler env raw
          = Except.error { statusCode := 400, message := "urls array required" }
        ∧ ∀ env2, scrapeLinksHandler env2 raw = scrapeLinksHandler env raw)
    ∧ (raw.urls.isArray = true →
        scrapeLinksHandler env raw = Except.ok (scrapeLinks env raw.toTyped)) := by
  constructor
  · intro hna
    have hcond : (!raw.urls.truthy || !raw.urls.isArray) = true := by
      rw [hna]
      simp
    exact ⟨by unfold scrapeLinksHandler; rw [if_pos hcond],
      fun env2 => by unfold scrapeLinksHandler; rw [if_pos hcond, if_pos hcond]⟩
  · intro ha
    have hcond : (!raw.urls.truthy || !raw.urls.isArray) = false := by
      rw [ha, truthy_of_isArray raw.urls ha]
      rfl
    unfold scrapeLinksHandler
    rw [if_neg (by rw [hcond]; simp)]

/-- Claim C9 (counterexample): the configured interval `1000 / rateLimit`
is NOT enforced between every pair of consecutive outbound requests.  In
this concrete crawl (one seed page with two links, 1 request/s, so a
1000 ms interval) the page fetch and the first redirect-chain check happen
with zero enforced delay between them, and the two consecutive redirect
checks are separated by only 500 ms. -/
theorem c9_rate_limit_counterexample :
    ¬ MinIntervalEnforced (delayMs bodyOne) (runCrawl envTwo bodyOne).trace := by
  intro h
  have htr : (runCrawl envTwo bodyOne).trace
      = [Event.request "http://a/", Event.request "http://a/x",
         Event.sleep (delayMs bodyOne / 2), Event.request "http://a/y",
         Event.sleep (delayMs bodyOne / 2)] := rfl
  have h0 := h 0 (by rw [htr]; simp [requestGaps, gapsAux])
  norm_num [delayMs, bodyOne] at h0

/-- Claim C9 (amended): the delays the scheduler actually enforces, per
iteration with a successful fetch and no break/throw: a fixed sleep of
`1000 / rateLimit` ms before the page fetch — skipped entirely while no
result exists yet — then the page-fetch request with no sleep before the
first redirect-chain check, then each redirect-chain check followed by a
sleep of half the interval.  Elapsed time is never measured; the sleeps are
unconditional, and requests are neither dropped nor reordered. -/
theorem c9_enforced_delays (env : Env) (body : ScrapeLinksRequest) (st : CrawlState)
    (item : FrontierItem) (rest : List FrontierItem) (anchors : List RawAnchor)
    (hq : st.queue = item :: rest)
    (hf : env.fetchHtml item.url = Except.ok anchors)
    (hhost : ∀ l ∈ extractLinks env anchors item.url,
      (env.hostname l.targetUrl).isSome = true)
    (hcap : st.results.length + (extractLinks env anchors item.url).length
      ≤ body.maxUrls) :
    (crawlStep env body st).trace
      = st.trace
        ++ (if 0 < st.results.length then [Event.sleep (delayMs body)] else [])
        ++ [Event.request item.url]
        ++ ((extractLinks env anchors item.url).map
              (fun l => [Event.request l.targetUrl,
                         Event.sleep (delayMs body / 2)])).flatten := by
  rcases hpl : processLinks env body item (extractLinks env anchors item.url)
    (preState body st item rest) with ⟨st1, b⟩
  have hb := processLinks_nothrow env body item (extractLinks env anchors item.url)
    (preState body st item rest) hhost
  rw [hpl] at hb
  simp at hb
  subst hb
  rw [crawlStep_ok_nothrow env body st item rest anchors st1 hq hf hpl]
  have ht := processLinks_trace env body item (extractLinks env anchors item.url)
    (preState body st item rest) hhost (by simpa [preState] using hcap)
  rw [hpl] at ht
  simpa [preState] using ht

theorem c9_enforced_delays_witness :
    (crawlStep envTwo bodyOne stOne).trace
      = stOne.trace
        ++ (if 0 < stOne.results.length then [Event.sleep (delayMs bodyOne)] else [])
        ++ [Event.request (⟨"http://a/", 0, none⟩ : FrontierItem).url]
        ++ ((extractLinks envTwo
              [{ href := "http://a/x", anchorText := "x", rel := [] },
               { href := "http://a/y", anchorText := "y", rel := ["nofollow"] }]
              (⟨"http://a/", 0, none⟩ : FrontierItem).url).map
              (fun l => [Event.request l.targetUrl,
                         Event.sleep (delayMs bodyOne / 2)])).flatten :=
  c9_enforced_delays envTwo bodyOne stOne ⟨"http://a/", 0, none⟩ []
    [{ href := "http://a/x", anchorText := "x", rel := [] },
     { href := "http://a/y", anchorText := "y", rel := ["nofollow"] }]
    rfl rfl (by decide) (by decide)

/-- Claim C10: frontier items are enqueued without a `sourceUrl` field —
at seeding, by every iteration, hence throughout the crawl — so the
failure record's `sourceUrl: item.sourceUrl || item.url` always falls back
to the page's own URL: every failure `LinkResult` has `sourceUrl` equal to
its `targetUrl`, and always carries type `'internal'`, empty
`redirectChain`, `anchorText` and `rel`, whatever the failed page was. -/
theorem c10_failure_shape (env : Env) (body : ScrapeLinksRequest) :
    (∀ it ∈ (initState env body).queue, it.sourceUrl = none)
    ∧ (∀ st, (∀ it ∈ st.queue, it.sourceUrl = none) →
        ∀ it ∈ (crawlStep env body st).queue, it.sourceUrl = none)
    ∧ (∀ it ∈ (runCrawl env body).queue, it.sourceUrl = none)
    ∧ (∀ (item : FrontierItem) (msg : String), item.sourceUrl = none →
        mkFailureResult item msg
          = { sourceUrl := item.url, targetUrl := item.url, status := 0,
              redirectChain := "", type := LinkType.internal, anchorText := "",
              rel := "", depth := item.depth, error := some msg }) := by
  have hstep : ∀ st, (∀ it ∈ st.queue, it.sourceUrl = none) →
      ∀ it ∈ (crawlStep env body st).queue, it.sourceUrl = none := by
    intro st hP it hit
    cases hq2 : st.queue with
    | nil =>
      rw [crawlStep_nil env body st hq2] at hit
      exact hP it hit
    | cons item rest =>
      have hrest : ∀ q ∈ rest, q.sourceUrl = none := fun q hq =>
        hP q (by rw [hq2]; exact List.mem_cons_of_mem _ hq)
      cases hfetch : env.fetchHtml item.url with
      | error e =>
        rw [crawlStep_error env body st item rest e hq2 hfetch] at hit
        exact hrest it (by simpa [preState] using hit)
      | ok anchors =>
        rcases hpl : processLinks env body item (extractLinks env anchors item.url)
          (preState body st item rest) with ⟨st1, b⟩
        obtain ⟨dq, hdqE, hdqAll⟩ := processLinks_queue env body item
          (extractLinks env anchors item.url) (preState body st item rest)
        rw [hpl] at hdqE
        simp only [preState] at hdqE
        have hit2 : it ∈ rest ++ dq := by
          cases b with
          | true =>
            rw [crawlStep_ok_throw env body st item rest anchors st1 hq2 hfetch hpl] at hit
            rw [← hdqE]
            simpa using hit
          | false =>
            rw [crawlStep_ok_nothrow env body st item rest anchors st1 hq2 hfetch hpl] at hit
            rw [← hdqE]
            exact hit
        rcases List.mem_append.mp hit2 with h | h
        · exact hrest it h
        · exact (hdqAll it h).2.1
  refine ⟨fun it hit => ((initState_spec env body).2.2.2 it hit).2, hstep, ?_, ?_⟩
  · exact crawlLoop_inv env body (fun s => ∀ it ∈ s.queue, it.sourceUrl = none)
      (fun s _ _ hP => hstep s hP) (initState env body)
      (fun it hit => ((initState_spec env body).2.2.2 it hit).2)
  · intro item msg h
    simp [mkFailureResult, jsOrElse, h]

end Scrape
